import Mathlib

/-!
Shallow embedding of the S3-backed filesystem adapter (`S3FileSystemService`)
and proofs about its path normalization, probes, stat, copy, tree listing,
directory creation and unsupported operations.

Strings are handled through their underlying character lists so that the
JavaScript string operations (`replace`, split on `"/"`, `startsWith`,
`endsWith`, prefix tests) are rendered as structurally recursive list
functions.
-/

set_option autoImplicit false

deriving instance DecidableEq for Except

namespace S3FS

/-- Embedding of `fsPath.replace(/\\/g, "/")` applied characterwise. -/
def slashify (c : Char) : Char := if c = '\\' then '/' else c

/-- Embedding of JavaScript `s.split("/")` on character lists:
splitting the empty string yields one empty field. -/
def splitSlash : List Char → List (List Char)
  | [] => [[]]
  | c :: rest =>
    if c = '/' then [] :: splitSlash rest
    else
      match splitSlash rest with
      | [] => [[c]]
      | p :: ps => (c :: p) :: ps

/-- Embedding of `parts.join("/")`. -/
def joinSlash : List (List Char) → List Char
  | [] => []
  | [p] => p
  | p :: q :: rest => p ++ '/' :: joinSlash (q :: rest)

/-- Embedding of `.replace(/^\/+|\/+$/g, "")`: strip leading and trailing
slashes. -/
def stripSlashes (cs : List Char) : List Char :=
  ((cs.dropWhile (fun c => c = '/')).reverse.dropWhile (fun c => c = '/')).reverse

/-- The traversal-above-root error message thrown by `_s3Key`. -/
def travMsg (fsPath : String) : String :=
  "Invalid path: " ++ fsPath ++ " attempts to traverse above bucket root."

/-- The segment-processing loop of `_s3Key`: `..` pops the most recently
retained segment (erroring when none is retained), `.` and empty segments
are dropped, anything else is pushed.  The accumulator holds retained
segments most-recent-first; the final result is reversed back. -/
def procParts (fsPath : String) : List (List Char) → List (List Char) →
    Except String (List (List Char))
  | acc, [] => .ok acc.reverse
  | acc, p :: rest =>
    if p = ['.', '.'] then
      match acc with
      | [] => .error (travMsg fsPath)
      | _ :: acc' => procParts fsPath acc' rest
    else if p = ['.'] ∨ p = [] then
      procParts fsPath acc rest
    else
      procParts fsPath (p :: acc) rest

/-- Embedding of `S3FileSystemService._s3Key`: backslashes become slashes,
leading/trailing slashes are stripped, the remainder is split on `"/"` and
the segments are resolved; a `..` with no retained segment is an error. -/
def s3Key (fsPath : String) : Except String String :=
  let stripped := stripSlashes (fsPath.data.map slashify)
  (procParts fsPath [] (splitSlash stripped)).map
    (fun parts => String.mk (joinSlash parts))

/-- Is `pre` a prefix of `s` (character lists)?  Embedding of the
prefix comparisons the adapter relies on (`startsWith`, S3 prefix match). -/
def hasPfx : List Char → List Char → Bool
  | [], _ => true
  | _ :: _, [] => false
  | c :: cs, d :: ds => c = d && hasPfx cs ds

/-- String-level prefix test. -/
def strHasPfx (pre s : String) : Bool := hasPfx pre.data s.data

/-- Embedding of `s.endsWith("/")`. -/
def endsWithSlash (s : String) : Bool :=
  match s.data.getLast? with
  | some c => c = '/'
  | none => false

/-- The shape of an error thrown by the S3 client: its `name` and the
`$metadata.httpStatusCode` field. -/
structure S3Error where
  name : String
  httpStatusCode : Option Nat
  deriving DecidableEq

/-- `error.name === "NoSuchKey" || error.name === "NotFound" ||
error.$metadata?.httpStatusCode === 404`: the not-found class test used by
`exists` and `stat`. -/
def notFoundClass (e : S3Error) : Bool :=
  e.name = "NoSuchKey" || e.name = "NotFound" || e.httpStatusCode = some 404

/-- An error escaping an adapter operation: either a locally thrown
`Error(msg)` or an S3 client error re-raised unchanged. -/
inductive FsError where
  | appError (msg : String)
  | s3Error (e : S3Error)
  deriving DecidableEq

/-- `error.message?.startsWith("Path not found:")`: only locally thrown
errors carry a `message` string; the synthetic S3-shaped error object has
none, so the test is false for client errors. -/
def isPathNotFound : FsError → Bool
  | .appError m => strHasPfx "Path not found:" m
  | .s3Error _ => false

/-- Metadata returned by a successful `HeadObjectCommand`. -/
structure HeadMeta where
  contentLength : Nat
  lastModified : Nat
  contentType : Option String
  eTag : Option String
  deriving DecidableEq

/-- Response of a `ListObjectsV2Command` with `MaxKeys: 1` as consumed by
`stat`: the reported `KeyCount` and `CommonPrefixes`. -/
structure ListResp1 where
  keyCount : Nat
  commonPrefixes : List String
  deriving DecidableEq

/-- The result record of `stat`. -/
structure StatResult where
  path : String
  isFile : Bool
  isDirectory : Bool
  size : Option Nat
  modified : Option Nat
  contentType : Option String
  etag : Option String
  deriving DecidableEq

/-- A remote request issued through the S3 client, for tracing which calls
an operation performs. -/
inductive S3Cmd where
  | head (key : String)
  | put (key body : String)
  | get (key : String)
  | del (key : String)
  | copyObj (src dst : String)
  | list (pfx : String) (maxKeys : Option Nat)
  deriving DecidableEq

/-- Strip double quotes from an ETag: `response.ETag?.replace(/"/g, "")`. -/
def stripQuotes (s : String) : String :=
  String.mk (s.data.filter (fun c => ¬ c = '"'))

/-- The file-shaped stat result built from head-probe metadata. -/
def fileStat (fsPath : String) (m : HeadMeta) : StatResult :=
  ⟨fsPath, true, false, some m.contentLength, some m.lastModified,
    m.contentType, m.eTag.map stripQuotes⟩

/-- The synthetic directory-shaped stat result: size 0, no modification
time. -/
def dirStat (fsPath : String) : StatResult :=
  ⟨fsPath, false, true, some 0, none, none, none⟩

/-- Embedding of `S3FileSystemService.exists`, parametrized over the
client's head-probe behaviour.  Returns the outcome together with the
trace of remote requests issued. -/
def existsWith (head : String → Except S3Error HeadMeta) (fsPath : String) :
    Except FsError Bool × List S3Cmd :=
  match s3Key fsPath with
  | .error m => (.error (.appError m), [])
  | .ok k =>
    if k = "" then (.ok false, [])
    else
      match head k with
      | .ok _ => (.ok true, [.head k])
      | .error e =>
        if notFoundClass e then (.ok false, [.head k])
        else (.error (.s3Error e), [.head k])

/-- Embedding of `S3FileSystemService.stat`, parametrized over the client's
head-probe and `MaxKeys: 1` listing behaviour.  For the empty (root) key the
head probe is skipped via a synthetic not-found error; on a not-found-class
error a listing under the slash-suffixed prefix decides between a synthetic
directory and a "Path not found" failure. -/
def statWith (head : String → Except S3Error HeadMeta)
    (list1 : String → ListResp1) (fsPath : String) :
    Except FsError StatResult × List S3Cmd :=
  match s3Key fsPath with
  | .error m => (.error (.appError m), [])
  | .ok originalS3Key =>
    let tryRes : Except S3Error StatResult × List S3Cmd :=
      if originalS3Key = "" then
        (.error ⟨"NoSuchKey", some 404⟩, [])
      else
        match head originalS3Key with
        | .ok r => (.ok (fileStat fsPath r), [.head originalS3Key])
        | .error e => (.error e, [.head originalS3Key])
    match tryRes with
    | (.ok res, tr) => (.ok res, tr)
    | (.error e, tr) =>
      if notFoundClass e then
        let pfx := if ¬ originalS3Key = "" then originalS3Key ++ "/" else ""
        let lr := list1 pfx
        if 0 < lr.keyCount ∨ ¬ lr.commonPrefixes = [] ∨ originalS3Key = "" then
          (.ok (dirStat fsPath), tr ++ [.list pfx (some 1)])
        else
          (.error (.appError ("Path not found: " ++ fsPath)),
            tr ++ [.list pfx (some 1)])
      else (.error (.s3Error e), tr)

/-- The bucket contents: keys with their object bodies, most recent write
first. -/
abbrev Store := List (String × String)

/-- Lookup of the body stored at a key (first match wins, so a prepend is
an overwrite). -/
def lookupStore : Store → String → Option String
  | [], _ => none
  | (k', v) :: rest, k => if k' = k then some v else lookupStore rest k

/-- `PutObjectCommand`: store a body at a key. -/
def putStore (st : Store) (k v : String) : Store := (k, v) :: st

/-- All keys present in the store. -/
def storeKeys (st : Store) : List String := st.map (fun kv => kv.1)

/-- The keys lying under a prefix, in store order. -/
def keysUnder (st : Store) (pfx : String) : List String :=
  (storeKeys st).filter (fun k => strHasPfx pfx k)

/-- Store-backed `HeadObjectCommand` behaviour: success with metadata when
the key holds an object, a 404 `NotFound` error otherwise. -/
def headStore (st : Store) (k : String) : Except S3Error HeadMeta :=
  match lookupStore st k with
  | some body => .ok ⟨body.length, 0, none, none⟩
  | none => .error ⟨"NotFound", some 404⟩

/-- Store-backed `ListObjectsV2Command` with `MaxKeys: 1`: `KeyCount` is
capped at 1, and without a `Delimiter` no common prefixes are returned. -/
def listStore1 (st : Store) (pfx : String) : ListResp1 :=
  ⟨min (keysUnder st pfx).length 1, []⟩

/-- `exists` against a concrete store. -/
def existsStore (st : Store) (fsPath : String) :
    Except FsError Bool × List S3Cmd :=
  existsWith (headStore st) fsPath

/-- `stat` against a concrete store. -/
def statStore (st : Store) (fsPath : String) :
    Except FsError StatResult × List S3Cmd :=
  statWith (headStore st) (listStore1 st) fsPath

/-- Embedding of `writeFile`: empty keys are rejected, otherwise the body
is put at the normalized key. -/
def writeFileStore (st : Store) (fsPath content : String) :
    Except FsError Bool × Store × List S3Cmd :=
  match s3Key fsPath with
  | .error m => (.error (.appError m), st, [])
  | .ok k =>
    if k = "" then (.error (.appError "Path results in an empty S3 key."), st, [])
    else (.ok true, putStore st k content, [.put k content])

/-- Embedding of `getFile`: empty keys are rejected, a missing object is a
`NoSuchKey` client error, otherwise the stored body is returned. -/
def getFileStore (st : Store) (fsPath : String) :
    Except FsError String × List S3Cmd :=
  match s3Key fsPath with
  | .error m => (.error (.appError m), [])
  | .ok k =>
    if k = "" then (.error (.appError "Path results in an empty S3 key."), [])
    else
      match lookupStore st k with
      | some body => (.ok body, [.get k])
      | none => (.error (.s3Error ⟨"NoSuchKey", some 404⟩), [.get k])

/-- Embedding of `copy`: both keys must be non-empty; a server-side copy
duplicates the source body at the destination key, failing with
`NoSuchKey` when the source object is absent. -/
def copyStore (st : Store) (srcPath dstPath : String) :
    Except FsError Bool × Store × List S3Cmd :=
  match s3Key srcPath with
  | .error m => (.error (.appError m), st, [])
  | .ok srcKey =>
    match s3Key dstPath with
    | .error m => (.error (.appError m), st, [])
    | .ok dstKey =>
      if srcKey = "" then
        (.error (.appError "Source path results in an empty S3 key."), st, [])
      else if dstKey = "" then
        (.error (.appError "Destination path results in an empty S3 key."), st, [])
      else
        match lookupStore st srcKey with
        | some body =>
          (.ok true, putStore st dstKey body, [.copyObj srcKey dstKey])
        | none =>
          (.error (.s3Error ⟨"NoSuchKey", some 404⟩), st, [.copyObj srcKey dstKey])

/-- Embedding of `createDirectory`: the root key succeeds immediately; the
key is slash-suffixed and probed through `stat` (on the slash-suffixed
path); a reported directory short-circuits, a "Path not found" failure (or
any non-directory stat result) leads to putting an empty marker object, and
any other stat failure propagates. -/
def createDirectoryStore (st : Store) (fsPath : String) :
    Except FsError Bool × Store × List S3Cmd :=
  match s3Key fsPath with
  | .error m => (.error (.appError m), st, [])
  | .ok k =>
    if k = "" then (.ok true, st, [])
    else
      let k' := if endsWithSlash k then k else k ++ "/"
      let pr := statStore st k'
      match pr.1 with
      | .ok r =>
        if r.isDirectory then (.ok true, st, pr.2)
        else (.ok true, putStore st k' "", pr.2 ++ [.put k' ""])
      | .error e =>
        if isPathNotFound e then (.ok true, putStore st k' "", pr.2 ++ [.put k' ""])
        else (.error e, st, pr.2)

/-- One page of a paginated `ListObjectsV2` response: the returned keys and
the continuation cursor for the next page, if any. -/
structure ListPage where
  contents : List String
  nextToken : Option String
  deriving DecidableEq

/-- Does a page sequence respect the cursor chaining the loop performs:
every page before the last carries a next cursor, and the last page
carries none? -/
def chainedPages : List ListPage → Bool
  | [] => true
  | [pg] => pg.nextToken = none
  | pg :: q :: rest => pg.nextToken.isSome && chainedPages (q :: rest)

/-- The per-key filter of the tree listing: a key equal to the normalized
prefix itself that ends in `/` is skipped, and the ignore predicate drops
what it accepts. -/
def keepKey (npfx : String) (ign : String → Bool) (k : String) : Bool :=
  if k = npfx ∧ endsWithSlash k = true then false else ! ign k

/-- The `do … while (continuationToken)` loop of `getDirectoryTree` over an
explicit page sequence: the first page is always consumed, and the loop
continues exactly while the just-consumed page carried a next cursor. -/
def treeLoop (npfx : String) (ign : String → Bool) : List ListPage → List String
  | [] => []
  | pg :: rest =>
    pg.contents.filter (keepKey npfx ign) ++
      (match pg.nextToken with
       | some _ => treeLoop npfx ign rest
       | none => [])

/-- Embedding of `getDirectoryTree`: the path is normalized, slash-suffixed
unless empty, and the paginated listing is drained through `treeLoop`. -/
def getDirectoryTree (fsPath : String) (ign : String → Bool)
    (pages : List ListPage) : Except String (List String) :=
  (s3Key fsPath).map (fun s3Prefix =>
    let npfx :=
      if s3Prefix = "" then ""
      else if endsWithSlash s3Prefix then s3Prefix else s3Prefix ++ "/"
    treeLoop npfx ign pages)

/-- `chown`: unconditionally unsupported. -/
def chownOp (_path : String) (_uid _gid : Nat) : Except FsError Empty × List S3Cmd :=
  (.error (.appError "Method chown is not supported by S3FileSystem."), [])

/-- `chmod`: unconditionally unsupported. -/
def chmodOp (_path : String) (_mode : Nat) : Except FsError Empty × List S3Cmd :=
  (.error (.appError "Method chmod is not supported by S3FileSystem."), [])

/-- `rename`: unconditionally unsupported. -/
def renameOp (_oldPath _newPath : String) : Except FsError Empty × List S3Cmd :=
  (.error (.appError
    "Method rename is not supported by S3FileSystem. Use copy() and deleteFile() to achieve a move operation."), [])

/-- `watch`: unconditionally unsupported. -/
def watchOp (_dir _options : String) : Except FsError Empty × List S3Cmd :=
  (.error (.appError "Method watch is not supported by S3FileSystem."), [])

/-- `executeCommand`: unconditionally unsupported. -/
def executeCommandOp (_cmd _options : String) : Except FsError Empty × List S3Cmd :=
  (.error (.appError "Method executeCommand is not supported by S3FileSystem."), [])

/-- `borrowFile`: unconditionally unsupported. -/
def borrowFileOp (_fileName _callback : String) : Except FsError Empty × List S3Cmd :=
  (.error (.appError "Method borrowFile is not supported by S3FileSystem."), [])

/-- `glob`: unconditionally unsupported. -/
def globOp (_pattern _options : String) : Except FsError Empty × List S3Cmd :=
  (.error (.appError
    "Method glob is not fully supported by S3FileSystem. Only prefix-based listing is available via getDirectoryTree."), [])

/-- `grep`: unconditionally unsupported. -/
def grepOp (_searchString _options : String) : Except FsError Empty × List S3Cmd :=
  (.error (.appError
    "Method grep is not supported by S3FileSystem. Consider using S3 Select for specific use cases or downloading files for local search."), [])

/-! ### Lemmas about the normalization pipeline -/

/-- A retained segment: non-empty and neither `.` nor `..`. -/
def GoodSeg (p : List Char) : Prop := ¬ p = [] ∧ ¬ p = ['.'] ∧ ¬ p = ['.', '.']

theorem splitSlash_ne_nil (cs : List Char) : ¬ splitSlash cs = [] := by
  induction cs with
  | nil => simp [splitSlash]
  | cons c rest ih =>
    simp only [splitSlash]
    split
    · simp
    · cases h : splitSlash rest <;> simp

theorem mem_splitSlash_no_slash (cs p : List Char) (hp : p ∈ splitSlash cs) :
    '/' ∉ p := by
  induction cs generalizing p with
  | nil =>
    simp [splitSlash] at hp
    simp [hp]
  | cons c rest ih =>
    simp only [splitSlash] at hp
    by_cases hc : c = '/'
    · simp [hc] at hp
      rcases hp with h | h
      · simp [h]
      · exact ih p h
    · simp [hc] at hp
      cases hsp : splitSlash rest with
      | nil => exact absurd hsp (splitSlash_ne_nil rest)
      | cons q qs =>
        rw [hsp] at hp
        simp at hp
        rcases hp with h | h
        · subst h
          intro hmem
          rcases List.mem_cons.mp hmem with h' | h'
          · exact hc h'.symm
          · exact ih q (by simp [hsp]) h'
        · exact ih p (by simp [hsp, h])

theorem mem_of_mem_splitSlash (cs p : List Char) (c : Char)
    (hp : p ∈ splitSlash cs) (hc : c ∈ p) : c ∈ cs := by
  induction cs generalizing p with
  | nil =>
    simp [splitSlash] at hp
    subst hp
    simp at hc
  | cons d rest ih =>
    simp only [splitSlash] at hp
    by_cases hd : d = '/'
    · simp [hd] at hp
      rcases hp with h | h
      · subst h; simp at hc
      · exact List.mem_cons_of_mem _ (ih p h hc)
    · simp [hd] at hp
      cases hsp : splitSlash rest with
      | nil => exact absurd hsp (splitSlash_ne_nil rest)
      | cons q qs =>
        rw [hsp] at hp
        simp at hp
        rcases hp with h | h
        · subst h
          rcases List.mem_cons.mp hc with h' | h'
          · simp [h']
          · exact List.mem_cons_of_mem _ (ih q (by simp [hsp]) h')
        · exact List.mem_cons_of_mem _ (ih p (by simp [hsp, h]) hc)

theorem splitSlash_append_slash (p cs : List Char) (h : '/' ∉ p) :
    splitSlash (p ++ '/' :: cs) = p :: splitSlash cs := by
  induction p with
  | nil => simp [splitSlash]
  | cons c q ih =>
    have hc : ¬ c = '/' := by
      intro hh
      exact h (by simp [hh])
    have hq : '/' ∉ q := by
      intro hh
      exact h (List.mem_cons_of_mem _ hh)
    have h2 := ih hq
    simp only [List.cons_append, splitSlash, if_neg hc]
    rw [show q.append ('/' :: cs) = q ++ '/' :: cs from rfl, h2]

theorem splitSlash_no_slash (p : List Char) (h : '/' ∉ p) :
    splitSlash p = [p] := by
  induction p with
  | nil => simp [splitSlash]
  | cons c q ih =>
    have hc : ¬ c = '/' := by
      intro hh
      exact h (by simp [hh])
    have hq : '/' ∉ q := by
      intro hh
      exact h (List.mem_cons_of_mem _ hh)
    simp only [splitSlash, if_neg hc, ih hq]

theorem splitSlash_joinSlash (parts : List (List Char))
    (hne : ¬ parts = []) (h : ∀ p ∈ parts, '/' ∉ p) :
    splitSlash (joinSlash parts) = parts := by
  induction parts with
  | nil => exact absurd rfl hne
  | cons p rest ih =>
    cases rest with
    | nil => exact splitSlash_no_slash p (h p (by simp))
    | cons q t =>
      have hp : '/' ∉ p := h p (by simp)
      calc splitSlash (joinSlash (p :: q :: t))
          = splitSlash (p ++ '/' :: joinSlash (q :: t)) := rfl
        _ = p :: splitSlash (joinSlash (q :: t)) := splitSlash_append_slash _ _ hp
        _ = p :: (q :: t) := by
            rw [ih (by simp) (fun r hr => h r (List.mem_cons_of_mem _ hr))]

theorem joinSlash_ne_nil (p : List Char) (parts : List (List Char))
    (hp : ¬ p = []) : ¬ joinSlash (p :: parts) = [] := by
  cases parts with
  | nil => simpa [joinSlash] using hp
  | cons q t =>
    simp only [joinSlash]
    intro hh
    exact hp (List.append_eq_nil.mp hh).1

theorem joinSlash_head? (p : List Char) (parts : List (List Char))
    (hp : ¬ p = []) : (joinSlash (p :: parts)).head? = p.head? := by
  cases parts with
  | nil => rfl
  | cons q t =>
    simp only [joinSlash]
    cases p with
    | nil => exact absurd rfl hp
    | cons c cs => rfl

theorem joinSlash_getLast? (parts : List (List Char))
    (hne : ¬ parts = []) (h : ∀ p ∈ parts, ¬ p = []) :
    (joinSlash parts).getLast? = (parts.getLast hne).getLast? := by
  induction parts with
  | nil => exact absurd rfl hne
  | cons p rest ih =>
    cases rest with
    | nil => rfl
    | cons q t =>
      have hqt : ¬ joinSlash (q :: t) = [] :=
        joinSlash_ne_nil q t (h q (by simp))
      calc (joinSlash (p :: q :: t)).getLast?
          = (p ++ '/' :: joinSlash (q :: t)).getLast? := rfl
        _ = ('/' :: joinSlash (q :: t)).getLast? :=
            List.getLast?_append_of_ne_nil _ (by simp)
        _ = (joinSlash (q :: t)).getLast? := by
            cases hj : joinSlash (q :: t) with
            | nil => exact absurd hj hqt
            | cons d ds => simp [List.getLast?_cons_cons]
        _ = ((q :: t).getLast (by simp)).getLast? :=
            ih (by simp) (fun r hr => h r (List.mem_cons_of_mem _ hr))
        _ = ((p :: q :: t).getLast (by simp)).getLast? := by
            rw [List.getLast_cons_cons]

theorem mem_joinSlash (parts : List (List Char)) (c : Char)
    (hc : c ∈ joinSlash parts) : c = '/' ∨ ∃ p ∈ parts, c ∈ p := by
  induction parts with
  | nil => simp [joinSlash] at hc
  | cons p rest ih =>
    cases rest with
    | nil =>
      right
      exact ⟨p, by simp, hc⟩
    | cons q t =>
      simp only [joinSlash] at hc
      rcases List.mem_append.mp hc with h | h
      · right; exact ⟨p, by simp, h⟩
      · rcases List.mem_cons.mp h with h' | h'
        · left; exact h'
        · rcases ih h' with h'' | ⟨r, hr, hcr⟩
          · left; exact h''
          · right; exact ⟨r, List.mem_cons_of_mem _ hr, hcr⟩

theorem stripSlashes_subset (cs : List Char) : stripSlashes cs ⊆ cs := by
  intro x hx
  unfold stripSlashes at hx
  rw [List.mem_reverse] at hx
  have h1 : x ∈ (cs.dropWhile (fun c => c = '/')).reverse :=
    (List.dropWhile_sublist _).subset hx
  rw [List.mem_reverse] at h1
  exact (List.dropWhile_sublist _).subset h1

theorem dropWhile_slash_eq_self (cs : List Char)
    (h : ∀ c, cs.head? = some c → ¬ c = '/') :
    cs.dropWhile (fun c => c = '/') = cs := by
  cases cs with
  | nil => rfl
  | cons c t =>
    have hc : ¬ c = '/' := h c rfl
    simp [List.dropWhile, hc]

theorem stripSlashes_eq_self (cs : List Char)
    (h1 : ∀ c, cs.head? = some c → ¬ c = '/')
    (h2 : ∀ c, cs.getLast? = some c → ¬ c = '/') :
    stripSlashes cs = cs := by
  unfold stripSlashes
  rw [dropWhile_slash_eq_self cs h1]
  rw [dropWhile_slash_eq_self cs.reverse
    (fun c hc => h2 c (by rwa [List.head?_reverse] at hc))]
  exact List.reverse_reverse cs

theorem map_slashify_eq_self (cs : List Char)
    (h : ∀ c ∈ cs, ¬ c = '\\') : cs.map slashify = cs := by
  induction cs with
  | nil => rfl
  | cons c t ih =>
    have hc : ¬ c = '\\' := h c (by simp)
    simp only [List.map_cons, slashify, if_neg hc]
    rw [ih (fun d hd => h d (List.mem_cons_of_mem _ hd))]

theorem slashify_ne_backslash (c : Char) : ¬ slashify c = '\\' := by
  unfold slashify
  split
  · decide
  · assumption

theorem procParts_all_good (fp : String) (parts acc : List (List Char))
    (h : ∀ p ∈ parts, GoodSeg p) :
    procParts fp acc parts = .ok (acc.reverse ++ parts) := by
  induction parts generalizing acc with
  | nil => simp [procParts]
  | cons p rest ih =>
    obtain ⟨h1, h2, h3⟩ := h p (by simp)
    simp only [procParts, if_neg h3, if_neg (by simp [h1, h2] : ¬ (p = ['.'] ∨ p = []))]
    rw [ih (p :: acc) (fun q hq => h q (List.mem_cons_of_mem _ hq))]
    simp

theorem procParts_ok_mem (fp : String) (parts acc res : List (List Char))
    (h : procParts fp acc parts = .ok res) :
    ∀ p ∈ res, p ∈ acc ∨ p ∈ parts := by
  induction parts generalizing acc with
  | nil =>
    simp [procParts] at h
    intro p hp
    left
    rw [← h] at hp
    exact List.mem_reverse.mp hp
  | cons q rest ih =>
    simp only [procParts] at h
    by_cases h3 : q = ['.', '.']
    · rw [if_pos h3] at h
      cases acc with
      | nil => simp at h
      | cons a acc' =>
        intro p hp
        rcases ih acc' h p hp with hm | hm
        · exact Or.inl (List.mem_cons_of_mem _ hm)
        · exact Or.inr (List.mem_cons_of_mem _ hm)
    · rw [if_neg h3] at h
      by_cases h2 : q = ['.'] ∨ q = []
      · rw [if_pos h2] at h
        intro p hp
        rcases ih acc h p hp with hm | hm
        · exact Or.inl hm
        · exact Or.inr (List.mem_cons_of_mem _ hm)
      · rw [if_neg h2] at h
        intro p hp
        rcases ih (q :: acc) h p hp with hm | hm
        · rcases List.mem_cons.mp hm with h' | h'
          · exact Or.inr (by simp [h'])
          · exact Or.inl h'
        · exact Or.inr (List.mem_cons_of_mem _ hm)

theorem procParts_ok_good (fp : String) (parts acc res : List (List Char))
    (h : procParts fp acc parts = .ok res)
    (hacc : ∀ p ∈ acc, GoodSeg p) : ∀ p ∈ res, GoodSeg p := by
  induction parts generalizing acc with
  | nil =>
    simp [procParts] at h
    intro p hp
    rw [← h] at hp
    exact hacc p (List.mem_reverse.mp hp)
  | cons q rest ih =>
    simp only [procParts] at h
    by_cases h3 : q = ['.', '.']
    · rw [if_pos h3] at h
      cases acc with
      | nil => simp at h
      | cons a acc' =>
        exact ih acc' h (fun p hp => hacc p (List.mem_cons_of_mem _ hp))
    · rw [if_neg h3] at h
      by_cases h2 : q = ['.'] ∨ q = []
      · rw [if_pos h2] at h
        exact ih acc h hacc
      · rw [if_neg h2] at h
        refine ih (q :: acc) h ?_
        intro p hp
        rcases List.mem_cons.mp hp with h' | h'
        · subst h'
          push_neg at h2
          exact ⟨h2.2, h2.1, h3⟩
        · exact hacc p h'

/-- Every segment of a successfully normalized key is retained-good and
free of slashes and backslashes, and the key is their slash-join. -/
theorem s3Key_ok_parts (fsPath k : String) (h : s3Key fsPath = .ok k) :
    ∃ parts, k = String.mk (joinSlash parts) ∧
      ∀ p ∈ parts, GoodSeg p ∧ '/' ∉ p ∧ '\\' ∉ p := by
  have h2 : Except.map (fun parts => String.mk (joinSlash parts))
      (procParts fsPath [] (splitSlash (stripSlashes (fsPath.data.map slashify)))) =
      .ok k := h
  clear h
  cases hproc : procParts fsPath []
      (splitSlash (stripSlashes (fsPath.data.map slashify))) with
  | error m => rw [hproc] at h2; simp [Except.map] at h2
  | ok parts =>
    rw [hproc] at h2
    simp [Except.map] at h2
    refine ⟨parts, h2.symm, ?_⟩
    intro p hp
    have hmem : p ∈ splitSlash (stripSlashes (fsPath.data.map slashify)) := by
      rcases procParts_ok_mem fsPath _ [] parts hproc p hp with hm | hm
      · simp at hm
      · exact hm
    refine ⟨procParts_ok_good fsPath _ [] parts hproc (by simp) p hp, ?_, ?_⟩
    · exact mem_splitSlash_no_slash _ p hmem
    · intro hc
      have : '\\' ∈ stripSlashes (fsPath.data.map slashify) :=
        mem_of_mem_splitSlash _ p '\\' hmem hc
      have : '\\' ∈ fsPath.data.map slashify :=
        stripSlashes_subset (fsPath.data.map slashify) this
      rcases List.mem_map.mp this with ⟨c, _, hc2⟩
      exact slashify_ne_backslash c hc2

theorem mem_of_getLast?_some {l : List Char} {c : Char}
    (h : l.getLast? = some c) : c ∈ l := by
  cases l with
  | nil => simp at h
  | cons a t =>
    rw [List.getLast?_eq_getLast_of_ne_nil (by simp)] at h
    have hm := List.getLast_mem (l := a :: t) (by simp)
    have : (a :: t).getLast (by simp) = c := by
      exact Option.some_injective _ h
    rwa [this] at hm

theorem mem_of_head?_some {l : List Char} {c : Char}
    (h : l.head? = some c) : c ∈ l := by
  cases l with
  | nil => simp at h
  | cons a t =>
    simp at h
    simp [h]

/-- Characters of a join of good segments are slashes or segment
characters, hence never backslashes. -/
theorem joinSlash_no_backslash (parts : List (List Char))
    (h : ∀ p ∈ parts, '\\' ∉ p) : ∀ c ∈ joinSlash parts, ¬ c = '\\' := by
  intro c hc
  rcases mem_joinSlash parts c hc with h' | ⟨p, hp, hcp⟩
  · subst h'; decide
  · intro hb
    subst hb
    exact h p hp hcp

/-- Head and last characters of a join of good segments are not slashes. -/
theorem joinSlash_head_not_slash (parts : List (List Char))
    (hgood : ∀ p ∈ parts, GoodSeg p ∧ '/' ∉ p) :
    ∀ c, (joinSlash parts).head? = some c → ¬ c = '/' := by
  intro c hc
  cases parts with
  | nil => simp [joinSlash] at hc
  | cons p rest =>
    have hp : ¬ p = [] := (hgood p (by simp)).1.1
    rw [joinSlash_head? p rest hp] at hc
    intro heq
    subst heq
    exact (hgood p (by simp)).2 (mem_of_head?_some hc)

theorem joinSlash_getLast_not_slash (parts : List (List Char))
    (hgood : ∀ p ∈ parts, GoodSeg p ∧ '/' ∉ p) :
    ∀ c, (joinSlash parts).getLast? = some c → ¬ c = '/' := by
  intro c hc
  cases hpp : parts with
  | nil => subst hpp; simp [joinSlash] at hc
  | cons p rest =>
    subst hpp
    have hne : ¬ (p :: rest : List (List Char)) = [] := by simp
    rw [joinSlash_getLast? (p :: rest) hne
      (fun q hq => (hgood q hq).1.1)] at hc
    intro hceq
    subst hceq
    have hlmem : (p :: rest).getLast hne ∈ p :: rest :=
      List.getLast_mem hne
    exact (hgood _ hlmem).2 (mem_of_getLast?_some hc)

/-- Normalizing the join of good segments returns it unchanged. -/
theorem s3Key_of_parts (parts : List (List Char))
    (h : ∀ p ∈ parts, GoodSeg p ∧ '/' ∉ p ∧ '\\' ∉ p) :
    s3Key (String.mk (joinSlash parts)) = .ok (String.mk (joinSlash parts)) := by
  cases hpp : parts with
  | nil => subst hpp; decide
  | cons p0 rest =>
    subst hpp
    have hgood2 : ∀ p ∈ p0 :: rest, GoodSeg p ∧ '/' ∉ p :=
      fun p hp => ⟨(h p hp).1, (h p hp).2.1⟩
    have hmap : (joinSlash (p0 :: rest)).map slashify = joinSlash (p0 :: rest) :=
      map_slashify_eq_self _ (joinSlash_no_backslash _ (fun p hp => (h p hp).2.2))
    have hstrip : stripSlashes (joinSlash (p0 :: rest)) = joinSlash (p0 :: rest) :=
      stripSlashes_eq_self _ (joinSlash_head_not_slash _ hgood2)
        (joinSlash_getLast_not_slash _ hgood2)
    have hsplit : splitSlash (joinSlash (p0 :: rest)) = p0 :: rest :=
      splitSlash_joinSlash _ (by simp) (fun p hp => (h p hp).2.1)
    show Except.map (fun q => String.mk (joinSlash q))
        (procParts (String.mk (joinSlash (p0 :: rest))) []
          (splitSlash (stripSlashes
            ((String.mk (joinSlash (p0 :: rest))).data.map slashify)))) =
        .ok (String.mk (joinSlash (p0 :: rest)))
    rw [show (String.mk (joinSlash (p0 :: rest))).data = joinSlash (p0 :: rest) from rfl,
      hmap, hstrip, hsplit,
      procParts_all_good _ (p0 :: rest) [] (fun p hp => (h p hp).1)]
    simp [Except.map]

/-- Normalizing the join of good segments with a trailing slash appended
strips the slash and returns the join. -/
theorem s3Key_of_parts_slash (parts : List (List Char))
    (h : ∀ p ∈ parts, GoodSeg p ∧ '/' ∉ p ∧ '\\' ∉ p)
    (hne : ¬ parts = []) :
    s3Key (String.mk (joinSlash parts ++ ['/'])) =
      .ok (String.mk (joinSlash parts)) := by
  cases hpp : parts with
  | nil => exact absurd hpp hne
  | cons p0 rest =>
    subst hpp
    have hgood2 : ∀ p ∈ p0 :: rest, GoodSeg p ∧ '/' ∉ p :=
      fun p hp => ⟨(h p hp).1, (h p hp).2.1⟩
    have hjne : ¬ joinSlash (p0 :: rest) = [] :=
      joinSlash_ne_nil p0 rest (hgood2 p0 (by simp)).1.1
    have hmap : (joinSlash (p0 :: rest) ++ ['/']).map slashify =
        joinSlash (p0 :: rest) ++ ['/'] := by
      refine map_slashify_eq_self _ ?_
      intro c hc
      rcases List.mem_append.mp hc with h' | h'
      · exact joinSlash_no_backslash _ (fun p hp => (h p hp).2.2) c h'
      · simp at h'
        subst h'
        decide
    have hstrip : stripSlashes (joinSlash (p0 :: rest) ++ ['/']) =
        joinSlash (p0 :: rest) := by
      unfold stripSlashes
      have hfront : (joinSlash (p0 :: rest) ++ ['/']).dropWhile (fun c => c = '/') =
          joinSlash (p0 :: rest) ++ ['/'] := by
        refine dropWhile_slash_eq_self _ ?_
        intro c hc
        rw [List.head?_append_of_ne_nil _ hjne] at hc
        exact joinSlash_head_not_slash _ hgood2 c hc
      rw [hfront, List.reverse_append, show ((['/'] : List Char).reverse ++
          (joinSlash (p0 :: rest)).reverse) =
          '/' :: (joinSlash (p0 :: rest)).reverse by simp]
      have hdw : ('/' :: (joinSlash (p0 :: rest)).reverse).dropWhile
          (fun c => c = '/') =
          ((joinSlash (p0 :: rest)).reverse).dropWhile (fun c => c = '/') := by
        simp [List.dropWhile_cons]
      rw [hdw, dropWhile_slash_eq_self _ (fun c hc => by
        rw [List.head?_reverse] at hc
        exact joinSlash_getLast_not_slash _ hgood2 c hc), List.reverse_reverse]
    have hsplit : splitSlash (joinSlash (p0 :: rest)) = p0 :: rest :=
      splitSlash_joinSlash _ (by simp) (fun p hp => (h p hp).2.1)
    show Except.map (fun q => String.mk (joinSlash q))
        (procParts (String.mk (joinSlash (p0 :: rest) ++ ['/'])) []
          (splitSlash (stripSlashes
            ((String.mk (joinSlash (p0 :: rest) ++ ['/'])).data.map slashify)))) =
        .ok (String.mk (joinSlash (p0 :: rest)))
    rw [show (String.mk (joinSlash (p0 :: rest) ++ ['/'])).data =
        joinSlash (p0 :: rest) ++ ['/'] from rfl,
      hmap, hstrip, hsplit,
      procParts_all_good _ (p0 :: rest) [] (fun p hp => (h p hp).1)]
    simp [Except.map]

/-- Successful normalization is idempotent. -/
theorem s3Key_idem (p k : String) (h : s3Key p = .ok k) : s3Key k = .ok k := by
  rcases s3Key_ok_parts p k h with ⟨parts, hk, hgood⟩
  rw [hk]
  exact s3Key_of_parts parts hgood

/-- A successfully normalized key never ends in a slash. -/
theorem s3Key_not_endsWithSlash (p k : String) (h : s3Key p = .ok k) :
    endsWithSlash k = false := by
  rcases s3Key_ok_parts p k h with ⟨parts, hk, hgood⟩
  subst hk
  unfold endsWithSlash
  cases hl : (String.mk (joinSlash parts)).data.getLast? with
  | none => rfl
  | some c =>
    have hc : ¬ c = '/' :=
      joinSlash_getLast_not_slash parts
        (fun q hq => ⟨(hgood q hq).1, (hgood q hq).2.1⟩) c hl
    simp [hc]

/-- Appending a slash to a successfully normalized non-empty key
re-normalizes to the same key. -/
theorem s3Key_append_slash (p k : String) (h : s3Key p = .ok k)
    (hk : ¬ k = "") : s3Key (k ++ "/") = .ok k := by
  rcases s3Key_ok_parts p k h with ⟨parts, hkk, hgood⟩
  subst hkk
  have hne : ¬ parts = [] := by
    intro hp
    subst hp
    exact hk rfl
  have : String.mk (joinSlash parts) ++ "/" =
      String.mk (joinSlash parts ++ ['/']) := rfl
  rw [this]
  exact s3Key_of_parts_slash parts hgood hne

/-! ### Lemmas about the operations -/

theorem hasPfx_append (a l : List Char) : hasPfx a (a ++ l) = true := by
  induction a with
  | nil => rfl
  | cons c t ih => simp [hasPfx, ih]

theorem strHasPfx_self (s : String) : strHasPfx s s = true := by
  unfold strHasPfx
  have := hasPfx_append s.data []
  rwa [List.append_nil] at this

/-- A "Path not found: …" message passes the `startsWith` check of
`createDirectory`. -/
theorem isPathNotFound_msg (x : String) :
    isPathNotFound (.appError ("Path not found: " ++ x)) = true := by
  show hasPfx ("Path not found:" : String).data
    ("Path not found: " ++ x).data = true
  rw [String.data_append]
  have hdata : ("Path not found: " : String).data =
      ("Path not found:" : String).data ++ [' '] := by decide
  rw [hdata, List.append_assoc]
  exact hasPfx_append _ _

/-- A slash-suffixed key differs from the key itself. -/
theorem append_slash_ne (k : String) : ¬ (k ++ "/" : String) = k := by
  intro h
  have hd : (k ++ "/" : String).data = k.data := congrArg String.data h
  rw [String.data_append] at hd
  have := congrArg List.length hd
  simp at this

/-- `exists` spec, by cases on the probe outcome. -/
theorem existsWith_spec (head : String → Except S3Error HeadMeta)
    (p K : String) (h : s3Key p = .ok K) :
    (K = "" → existsWith head p = (.ok false, []))
    ∧ (¬ K = "" →
        (∀ m, head K = .ok m → existsWith head p = (.ok true, [.head K]))
        ∧ (∀ e, head K = .error e → notFoundClass e = true →
            existsWith head p = (.ok false, [.head K]))
        ∧ (∀ e, head K = .error e → notFoundClass e = false →
            existsWith head p = (.error (.s3Error e), [.head K]))) := by
  refine ⟨fun hK => ?_, fun hK =>
    ⟨fun m hm => ?_, fun e he hnf => ?_, fun e he hnf => ?_⟩⟩
  · simp [existsWith, h, hK]
  · simp [existsWith, h, hK, hm]
  · simp [existsWith, h, hK, he, hnf]
  · simp [existsWith, h, hK, he, hnf]

/-- `stat` on the root key: no head probe, a single `MaxKeys: 1` listing
with the empty prefix, and a directory result regardless of the store. -/
theorem statWith_root (head : String → Except S3Error HeadMeta)
    (list1 : String → ListResp1) (p : String) (h : s3Key p = .ok "") :
    statWith head list1 p = (.ok (dirStat p), [.list "" (some 1)]) := by
  have hnf : notFoundClass ⟨"NoSuchKey", some 404⟩ = true := by decide
  simp [statWith, h, hnf]

/-- `stat` when the head probe fails with a not-found-class error: the
listing under the slash-suffixed prefix decides directory versus
"Path not found". -/
theorem statWith_notFound (head : String → Except S3Error HeadMeta)
    (list1 : String → ListResp1) (p K : String) (h : s3Key p = .ok K)
    (hK : ¬ K = "") (e : S3Error) (he : head K = .error e)
    (hnf : notFoundClass e = true) :
    statWith head list1 p =
      (if 0 < (list1 (K ++ "/")).keyCount ∨
          ¬ (list1 (K ++ "/")).commonPrefixes = [] then
        (.ok (dirStat p), [.head K, .list (K ++ "/") (some 1)])
      else
        (.error (.appError ("Path not found: " ++ p)),
          [.head K, .list (K ++ "/") (some 1)])) := by
  simp [statWith, h, hK, he, hnf]

/-- `stat` when the head probe fails with an error outside the not-found
class: the error propagates unchanged and no listing happens. -/
theorem statWith_other (head : String → Except S3Error HeadMeta)
    (list1 : String → ListResp1) (p K : String) (h : s3Key p = .ok K)
    (hK : ¬ K = "") (e : S3Error) (he : head K = .error e)
    (hnf : notFoundClass e = false) :
    statWith head list1 p = (.error (.s3Error e), [.head K]) := by
  simp [statWith, h, hK, he, hnf]

/-- `stat` when the head probe succeeds: a file result. -/
theorem statWith_file (head : String → Except S3Error HeadMeta)
    (list1 : String → ListResp1) (p K : String) (h : s3Key p = .ok K)
    (hK : ¬ K = "") (m : HeadMeta) (hm : head K = .ok m) :
    statWith head list1 p = (.ok (fileStat p m), [.head K]) := by
  simp [statWith, h, hK, hm]

theorem headStore_none (st : Store) (K : String)
    (h : lookupStore st K = none) :
    headStore st K = .error ⟨"NotFound", some 404⟩ := by
  unfold headStore
  rw [h]

theorem lookupStore_put_same (st : Store) (k v : String) :
    lookupStore (putStore st k v) k = some v := by
  simp [putStore, lookupStore]

theorem lookupStore_put_other (st : Store) (k v k' : String)
    (h : ¬ k = k') : lookupStore (putStore st k v) k' = lookupStore st k' := by
  simp [putStore, lookupStore, h]

theorem keysUnder_put_self_ne_nil (st : Store) (k v : String) :
    ¬ keysUnder (putStore st k v) k = [] := by
  unfold keysUnder storeKeys putStore
  simp [strHasPfx_self]

/-- `stat` against a store holding no object at the bare key `K`: the head
probe 404s, and the `MaxKeys: 1` listing under `K ++ "/"` decides the
outcome. -/
theorem statStore_no_bare (st : Store) (q K : String)
    (hq : s3Key q = .ok K) (hK : ¬ K = "")
    (hbare : lookupStore st K = none) :
    statStore st q =
      (if ¬ keysUnder st (K ++ "/") = [] then
        (.ok (dirStat q), [.head K, .list (K ++ "/") (some 1)])
      else
        (.error (.appError ("Path not found: " ++ q)),
          [.head K, .list (K ++ "/") (some 1)])) := by
  unfold statStore
  rw [statWith_notFound (headStore st) (listStore1 st) q K hq hK
    ⟨"NotFound", some 404⟩ (headStore_none st K hbare) (by decide)]
  by_cases hch : keysUnder st (K ++ "/") = []
  · rw [if_neg (by simp [listStore1, hch]), if_neg (by simp [hch])]
  · have hlen : 0 < (keysUnder st (K ++ "/")).length := List.length_pos.mpr hch
    rw [if_pos (by simp only [listStore1]; omega), if_pos hch]

/-- Draining a cursor-chained page sequence through the listing loop
flattens the filtered page contents in page order. -/
theorem treeLoop_eq_join (npfx : String) (ign : String → Bool)
    (pages : List ListPage) (hch : chainedPages pages = true) :
    treeLoop npfx ign pages =
      (pages.map (fun pg => pg.contents.filter (keepKey npfx ign))).flatten := by
  induction pages with
  | nil => rfl
  | cons pg rest ih =>
    cases rest with
    | nil =>
      simp only [chainedPages, decide_eq_true_eq] at hch
      simp [treeLoop, hch]
    | cons q t =>
      simp only [chainedPages, Bool.and_eq_true] at hch
      obtain ⟨h1, h2⟩ := hch
      cases hnt : pg.nextToken with
      | none => rw [hnt] at h1; simp at h1
      | some s =>
        have hstep : treeLoop npfx ign (pg :: q :: t) =
            pg.contents.filter (keepKey npfx ign) ++ treeLoop npfx ign (q :: t) := by
          simp only [treeLoop, hnt]
        rw [hstep, ih h2]
        simp

/-- `createDirectory` on a store with no object at the bare key: succeeds;
if children (or a marker) already lie under the slash-suffixed prefix the
store and trace are mutation-free, otherwise exactly one marker put
happens. -/
theorem createDirectoryStore_no_bare (st : Store) (p K : String)
    (h : s3Key p = .ok K) (hK : ¬ K = "")
    (hbare : lookupStore st K = none) :
    createDirectoryStore st p =
      (if ¬ keysUnder st (K ++ "/") = [] then
        (.ok true, st, [.head K, .list (K ++ "/") (some 1)])
      else
        (.ok true, putStore st (K ++ "/") "",
          [.head K, .list (K ++ "/") (some 1), .put (K ++ "/") ""])) := by
  have hk' : s3Key (K ++ "/") = .ok K := s3Key_append_slash p K h hK
  have hnes : endsWithSlash K = false := s3Key_not_endsWithSlash p K h
  have hstat := statStore_no_bare st (K ++ "/") K hk' hK hbare
  by_cases hch : keysUnder st (K ++ "/") = []
  · rw [if_neg (by simp [hch])] at hstat
    rw [if_neg (by simp [hch])]
    simp [createDirectoryStore, h, hnes, hK, hstat, isPathNotFound_msg]
  · rw [if_pos hch] at hstat
    rw [if_pos hch]
    simp [createDirectoryStore, h, hnes, hK, hstat, dirStat]

/-- `createDirectory` on the root path: immediate success, no change, no
remote call. -/
theorem createDirectoryStore_root (st : Store) (p : String)
    (h : s3Key p = .ok "") :
    createDirectoryStore st p = (.ok true, st, []) := by
  simp [createDirectoryStore, h]

/-! ### Claim theorems -/

/-- Claim C3: path normalization is idempotent: whenever `s3Key` succeeds
on a path, re-normalizing the produced key returns it unchanged, so
`toKey (toKey p) = toKey p`. -/
theorem claim_C3_toKey_idempotent (p k : String) (h : s3Key p = .ok k) :
    s3Key k = .ok k :=
  s3Key_idem p k h

/-- Witness for claim C3 at the concrete input `"a//b/./c"`. -/
theorem claim_C3_witness :
    s3Key "a//b/./c" = .ok "a/b/c" ∧ s3Key "a/b/c" = .ok "a/b/c" :=
  ⟨by decide, claim_C3_toKey_idempotent "a//b/./c" "a/b/c" (by decide)⟩

/-- Claim C4: a `..` segment pops the most recently retained segment when
at least one is retained, and fails with the traversal-above-root error
when none is (never silently clamping); concretely
`toKey "a/b/../c" = "a/c"` and `toKey "../x"` fails with the traversal
error. -/
theorem claim_C4_dotdot_behaviour :
    (∀ fp rest, procParts fp [] (['.', '.'] :: rest) = .error (travMsg fp))
    ∧ (∀ fp a acc rest, procParts fp (a :: acc) (['.', '.'] :: rest) =
        procParts fp acc rest)
    ∧ s3Key "a/b/../c" = .ok "a/c"
    ∧ s3Key "../x" = .error (travMsg "../x") := by
  refine ⟨fun fp rest => ?_, fun fp a acc rest => ?_, by decide, by decide⟩
  · simp [procParts]
  · simp [procParts]

/-- Claim C7: `exists` returns false on the empty (root) key with no remote
call; otherwise it heads the key and returns true on success, false on a
not-found-class error, and re-raises any other error unchanged. -/
theorem claim_C7_exists_probe (head : String → Except S3Error HeadMeta)
    (p K : String) (h : s3Key p = .ok K) :
    (K = "" → existsWith head p = (.ok false, []))
    ∧ (¬ K = "" →
        (∀ m, head K = .ok m → existsWith head p = (.ok true, [.head K]))
        ∧ (∀ e, head K = .error e → notFoundClass e = true →
            existsWith head p = (.ok false, [.head K]))
        ∧ (∀ e, head K = .error e → notFoundClass e = false →
            existsWith head p = (.error (.s3Error e), [.head K]))) :=
  existsWith_spec head p K h

/-- Witness for claim C7: a throttling error from the probe propagates. -/
theorem claim_C7_witness :
    existsWith (fun _ => .error ⟨"Throttled", some 500⟩) "a" =
      (.error (.s3Error ⟨"Throttled", some 500⟩), [.head "a"]) :=
  ((claim_C7_exists_probe (fun _ => .error ⟨"Throttled", some 500⟩) "a" "a"
      (by decide)).2 (by decide)).2.2 ⟨"Throttled", some 500⟩ rfl (by decide)

/-- Claim C6: `stat` on a path normalizing to the root key returns the
synthetic directory result (isDirectory true, isFile false) for every
store, and its trace holds a single listing request and no head probe. -/
theorem claim_C6_stat_root (st : Store) (p : String) (h : s3Key p = .ok "") :
    statStore st p = (.ok (dirStat p), [.list "" (some 1)]) :=
  statWith_root (headStore st) (listStore1 st) p h

/-- Witness for claim C6 on a non-empty store and the path `"/"`. -/
theorem claim_C6_witness :
    statStore [("a", "b")] "/" = (.ok (dirStat "/"), [.list "" (some 1)]) :=
  claim_C6_stat_root [("a", "b")] "/" (by decide)

/-- Claim C1: when the key is absent as an object (not-found-class probe
error, or the root key), `stat` lists under the slash-suffixed prefix
(empty for the root) with `MaxKeys: 1` and returns the synthetic directory
result if the listing reports a key or the key is the root, failing with
"Path not found" otherwise; probe errors outside the not-found class
propagate unchanged.  Listing responses are constrained to carry no common
prefixes, as real responses to delimiter-less requests do. -/
theorem claim_C1_stat_fallback (head : String → Except S3Error HeadMeta)
    (list1 : String → ListResp1) (p K : String) (h : s3Key p = .ok K)
    (hcp : (list1 (if K = "" then "" else K ++ "/")).commonPrefixes = []) :
    (K = "" → statWith head list1 p = (.ok (dirStat p), [.list "" (some 1)]))
    ∧ (¬ K = "" → ∀ e, head K = .error e → notFoundClass e = true →
        statWith head list1 p =
          (if 0 < (list1 (K ++ "/")).keyCount then
            (.ok (dirStat p), [.head K, .list (K ++ "/") (some 1)])
          else
            (.error (.appError ("Path not found: " ++ p)),
              [.head K, .list (K ++ "/") (some 1)])))
    ∧ (¬ K = "" → ∀ e, head K = .error e → notFoundClass e = false →
        statWith head list1 p = (.error (.s3Error e), [.head K])) := by
  refine ⟨fun hK => ?_, fun hK e he hnf => ?_, fun hK e he hnf =>
    statWith_other head list1 p K h hK e he hnf⟩
  · subst hK
    exact statWith_root head list1 p h
  · rw [statWith_notFound head list1 p K h hK e he hnf]
    rw [if_neg hK] at hcp
    by_cases hl : 0 < (list1 (K ++ "/")).keyCount
    · rw [if_pos hl, if_pos (Or.inl hl)]
    · rw [if_neg hl, if_neg ?_]
      rintro (hc | hc)
      · exact hl hc
      · exact hc hcp

/-- Witness for claim C1: a 404 probe plus a one-key listing yields the
synthetic directory. -/
theorem claim_C1_witness :
    statWith (fun _ => .error ⟨"NoSuchKey", some 404⟩)
        (fun _ => ⟨1, []⟩) "a" =
      (.ok (dirStat "a"), [.head "a", .list "a/" (some 1)]) := by
  have h := (claim_C1_stat_fallback (fun _ => .error ⟨"NoSuchKey", some 404⟩)
      (fun _ => ⟨1, []⟩) "a" "a" (by decide) rfl).2.1 (by decide)
      ⟨"NoSuchKey", some 404⟩ rfl (by decide)
  simpa using h

/-- Claim C8: the eight unsupported operations each fail immediately with
an error message naming the operation, issue no remote request, and never
no-op. -/
theorem claim_C8_unsupported_ops :
    (∀ p u g, chownOp p u g =
      (.error (.appError "Method chown is not supported by S3FileSystem."), []))
    ∧ (∀ p m, chmodOp p m =
      (.error (.appError "Method chmod is not supported by S3FileSystem."), []))
    ∧ (∀ a b, renameOp a b =
      (.error (.appError
        "Method rename is not supported by S3FileSystem. Use copy() and deleteFile() to achieve a move operation."), []))
    ∧ (∀ d o, watchOp d o =
      (.error (.appError "Method watch is not supported by S3FileSystem."), []))
    ∧ (∀ c o, executeCommandOp c o =
      (.error (.appError "Method executeCommand is not supported by S3FileSystem."), []))
    ∧ (∀ f c, borrowFileOp f c =
      (.error (.appError "Method borrowFile is not supported by S3FileSystem."), []))
    ∧ (∀ g o, globOp g o =
      (.error (.appError
        "Method glob is not fully supported by S3FileSystem. Only prefix-based listing is available via getDirectoryTree."), []))
    ∧ (∀ s o, grepOp s o =
      (.error (.appError
        "Method grep is not supported by S3FileSystem. Consider using S3 Select for specific use cases or downloading files for local search."), [])) :=
  ⟨fun _ _ _ => rfl, fun _ _ => rfl, fun _ _ => rfl, fun _ _ => rfl,
   fun _ _ => rfl, fun _ _ => rfl, fun _ _ => rfl, fun _ _ => rfl⟩

/-- Claim C9: after a successful write of `v` at `a`, copying `a` to `b`
succeeds, reading `b` yields `v`, and the object stored at `a` is unchanged
by the copy. -/
theorem claim_C9_copy_frame (st : Store) (a b v ka kb : String)
    (ha : s3Key a = .ok ka) (hb : s3Key b = .ok kb)
    (hka : ¬ ka = "") (hkb : ¬ kb = "") (_hab : ¬ a = b) :
    (writeFileStore st a v).1 = .ok true ∧
    (copyStore (writeFileStore st a v).2.1 a b).1 = .ok true ∧
    (getFileStore (copyStore (writeFileStore st a v).2.1 a b).2.1 b).1 =
      .ok v ∧
    lookupStore (copyStore (writeFileStore st a v).2.1 a b).2.1 ka =
      lookupStore (writeFileStore st a v).2.1 ka := by
  have hw : writeFileStore st a v = (.ok true, putStore st ka v, [.put ka v]) := by
    simp [writeFileStore, ha, hka]
  have hst1 : (writeFileStore st a v).2.1 = putStore st ka v := by rw [hw]
  have hlk1 : lookupStore (putStore st ka v) ka = some v :=
    lookupStore_put_same st ka v
  have hc : copyStore (putStore st ka v) a b =
      (.ok true, putStore (putStore st ka v) kb v, [.copyObj ka kb]) := by
    simp [copyStore, ha, hb, hka, hkb, hlk1]
  have hc21 : (copyStore (putStore st ka v) a b).2.1 =
      putStore (putStore st ka v) kb v := by rw [hc]
  have hlk2 : lookupStore (putStore (putStore st ka v) kb v) kb = some v :=
    lookupStore_put_same _ kb v
  refine ⟨by rw [hw], by rw [hst1, hc], ?_, ?_⟩
  · rw [hst1, hc21]
    simp [getFileStore, hb, hkb, hlk2]
  · rw [hst1, hc21]
    by_cases hk : kb = ka
    · subst hk
      rw [lookupStore_put_same, lookupStore_put_same]
    · rw [lookupStore_put_other _ kb v ka hk]

/-- Witness for claim C9 on an empty store with `a.txt` and `b.txt`. -/
theorem claim_C9_witness :
    (writeFileStore [] "a.txt" "v").1 = .ok true ∧
    (copyStore (writeFileStore [] "a.txt" "v").2.1 "a.txt" "b.txt").1 =
      .ok true ∧
    (getFileStore (copyStore (writeFileStore [] "a.txt" "v").2.1 "a.txt"
      "b.txt").2.1 "b.txt").1 = .ok "v" ∧
    lookupStore (copyStore (writeFileStore [] "a.txt" "v").2.1 "a.txt"
        "b.txt").2.1 "a.txt" =
      lookupStore (writeFileStore [] "a.txt" "v").2.1 "a.txt" :=
  claim_C9_copy_frame [] "a.txt" "b.txt" "v" "a.txt" "b.txt" (by decide)
    (by decide) (by decide) (by decide) (by decide)

/-- Claim C10: on a store with no object at the bare key but at least one
key under its slash-suffixed prefix, `exists` answers false while `stat`
reports the synthetic directory: the two probes disagree on implied
directories. -/
theorem claim_C10_implied_dir_disagreement (st : Store) (p K : String)
    (h : s3Key p = .ok K) (hK : ¬ K = "")
    (habs : lookupStore st K = none)
    (hchild : ¬ keysUnder st (K ++ "/") = []) :
    (existsStore st p).1 = .ok false ∧
    (statStore st p).1 = .ok (dirStat p) := by
  constructor
  · have he := ((existsWith_spec (headStore st) p K h).2 hK).2.1
      ⟨"NotFound", some 404⟩ (headStore_none st K habs) (by decide)
    unfold existsStore
    rw [he]
  · have hs := statStore_no_bare st p K h hK habs
    rw [if_pos hchild] at hs
    rw [hs]

/-- Witness for claim C10: key `d` absent, child `d/f.txt` present. -/
theorem claim_C10_witness :
    (existsStore [("d/f.txt", "x")] "d").1 = .ok false ∧
    (statStore [("d/f.txt", "x")] "d").1 = .ok (dirStat "d") :=
  claim_C10_implied_dir_disagreement [("d/f.txt", "x")] "d" "d" (by decide)
    (by decide) (by decide) (by decide)

/-- Claim C5: over any cursor-chained page sequence whose keys lie under
the slash-suffixed prefix, the tree listing yields exactly the pages'
keys in page order, minus the prefix's own marker key and the keys the
ignore predicate accepts. -/
theorem claim_C5_tree_listing (p K : String) (ign : String → Bool)
    (pages : List ListPage) (h : s3Key p = .ok K)
    (hch : chainedPages pages = true)
    (_hunder : ∀ pg ∈ pages, ∀ k ∈ pg.contents,
      strHasPfx (if K = "" then "" else K ++ "/") k = true) :
    getDirectoryTree p ign pages =
      .ok ((pages.map (fun pg => pg.contents.filter
        (keepKey (if K = "" then "" else K ++ "/") ign))).flatten) := by
  have hnes : endsWithSlash K = false := s3Key_not_endsWithSlash p K h
  unfold getDirectoryTree
  rw [h]
  simp only [Except.map, hnes, Bool.false_eq_true, if_false]
  exact congrArg _ (treeLoop_eq_join _ ign pages hch)

/-- Witness for claim C5: two chained pages; the marker key `dir/` is
skipped, the rest appear in page order. -/
theorem claim_C5_witness :
    getDirectoryTree "dir" (fun _ => false)
        [⟨["dir/", "dir/inner.txt"], some "t"⟩, ⟨["dir/z.txt"], none⟩] =
      .ok ["dir/inner.txt", "dir/z.txt"] := by
  have h := claim_C5_tree_listing "dir" "dir" (fun _ => false)
    [⟨["dir/", "dir/inner.txt"], some "t"⟩, ⟨["dir/z.txt"], none⟩]
    (by decide) (by decide) (by decide)
  exact h.trans (by decide)

/-- Claim C2 as stated is false: with an object stored at the bare key
`dir`, `createDirectory "dir"` succeeds, yet the immediately following
second call issues another marker put. -/
theorem claim_C2_counterexample :
    (createDirectoryStore [("dir", "x")] "dir").1 = .ok true ∧
    (createDirectoryStore (createDirectoryStore [("dir", "x")] "dir").2.1
      "dir").1 = .ok true ∧
    S3Cmd.put "dir/" "" ∈
      (createDirectoryStore (createDirectoryStore [("dir", "x")] "dir").2.1
        "dir").2.2 := by
  decide

/-- Claim C2, amended: `createDirectory` is idempotent provided no object
is stored at the bare (non-slash-suffixed) normalized key: the call
succeeds, the root key succeeds immediately with no remote call at all,
and an immediately following second call succeeds without issuing any
put. -/
theorem claim_C2_amended_idempotent (st : Store) (p K : String)
    (h : s3Key p = .ok K) (hbare : lookupStore st K = none) :
    (createDirectoryStore st p).1 = .ok true ∧
    (K = "" → createDirectoryStore st p = (.ok true, st, [])) ∧
    (createDirectoryStore (createDirectoryStore st p).2.1 p).1 = .ok true ∧
    (∀ k v, S3Cmd.put k v ∉
      (createDirectoryStore (createDirectoryStore st p).2.1 p).2.2) := by
  by_cases hK : K = ""
  · subst hK
    have h1 := createDirectoryStore_root st p h
    have h2 : (createDirectoryStore st p).2.1 = st := by rw [h1]
    refine ⟨by rw [h1], fun _ => h1, by rw [h2, h1], ?_⟩
    intro k v
    rw [h2, h1]
    simp
  · have h1 := createDirectoryStore_no_bare st p K h hK hbare
    by_cases hch : keysUnder st (K ++ "/") = []
    · rw [if_neg (by simp [hch])] at h1
      have hst1 : (createDirectoryStore st p).2.1 = putStore st (K ++ "/") "" := by
        rw [h1]
      have hbare1 : lookupStore (putStore st (K ++ "/") "") K = none := by
        rw [lookupStore_put_other st (K ++ "/") "" K (append_slash_ne K), hbare]
      have h2 := createDirectoryStore_no_bare (putStore st (K ++ "/") "") p K h
        hK hbare1
      rw [if_pos (keysUnder_put_self_ne_nil st (K ++ "/") "")] at h2
      refine ⟨by rw [h1], fun hcon => absurd hcon hK, by rw [hst1, h2], ?_⟩
      intro k v
      rw [hst1, h2]
      simp
    · rw [if_pos hch] at h1
      have hst1 : (createDirectoryStore st p).2.1 = st := by rw [h1]
      refine ⟨by rw [h1], fun hcon => absurd hcon hK, by rw [hst1, h1], ?_⟩
      intro k v
      rw [hst1, h1]
      simp

/-- Witness for the amended claim C2 on an empty store. -/
theorem claim_C2_witness :
    (createDirectoryStore [] "dir").1 = .ok true ∧
    S3Cmd.put "dir/" "" ∉
      (createDirectoryStore (createDirectoryStore [] "dir").2.1 "dir").2.2 :=
  ⟨(claim_C2_amended_idempotent [] "dir" "dir" (by decide) (by decide)).1,
   (claim_C2_amended_idempotent [] "dir" "dir" (by decide) (by decide)).2.2.2
     "dir/" ""⟩

end S3FS
